import Mathlib

/-!
Verification of the IterableWeakSet container.

The container keeps three collaborating structures:
a weakly-keyed map from each live element to its weak reference,
an insertion-ordered map from each weak reference to a registration token,
and a finalization registry whose callback deletes a token-map entry.

Shallow embedding: elements, weak references and tokens are identified by
natural numbers.  A container state records the three maps as association
lists, a table assigning every allocated weak reference its target element,
the set of reclaimed element identities, and allocation counters.  A weak
reference dereferences to its target exactly when the target has not been
reclaimed.  Public operations return Except values so that raising an
error is expressible.
-/

/-- Values a caller can pass to the public operations: either a primitive,
which cannot be weakly referenced, or a reference-identity value named by
a natural-number identity. -/
inductive JSVal where
  | prim (n : Nat)
  | obj (id : Nat)
deriving DecidableEq, Repr

/-- Runtime errors the operations can raise: the error raised when a value
that cannot be weakly referenced is given to the weak-reference constructor,
and the error raised when the registry unregister call receives a
non-object token. -/
inductive JSError where
  | invalidKeyType
  | invalidToken
deriving DecidableEq, Repr

/-- Lookup in an association list keyed by natural numbers, returning the
value of the first entry whose key matches. -/
def mapGet (m : List (Nat × Nat)) (k : Nat) : Option Nat :=
  (m.find? (fun p => p.1 == k)).map Prod.snd

/-- Map update: replace the value at an existing key in place, or append a
new entry at the end, mirroring insertion-ordered map semantics. -/
def mapSet (m : List (Nat × Nat)) (k v : Nat) : List (Nat × Nat) :=
  if m.any (fun p => p.1 == k) then
    m.map (fun p => if p.1 == k then (k, v) else p)
  else
    m ++ [(k, v)]

/-- Map deletion: remove every entry with the given key (at most one in any
state with distinct keys, matching map semantics). -/
def mapDelete (m : List (Nat × Nat)) (k : Nat) : List (Nat × Nat) :=
  m.filter (fun p => p.1 != k)

/-- Remove every finalization-registry registration whose unregister token
is the given one. -/
def unregister (g : List (Nat × Nat × Nat)) (t : Nat) : List (Nat × Nat × Nat) :=
  g.filter (fun q => q.2.2 != t)

/-- State of one IterableWeakSet instance together with the ambient heap
facts the operations depend on.  The field refs is the weakly-keyed map
from element to weak reference; tokens is the insertion-ordered map from
weak reference to registration token; registry is the list of live
finalization registrations as (target element, held reference, token)
triples; refTargets assigns every allocated weak-reference identity its
target element; dead lists the reclaimed element identities; refCtr and
tokCtr allocate fresh identities. -/
structure State where
  refs : List (Nat × Nat)
  tokens : List (Nat × Nat)
  registry : List (Nat × Nat × Nat)
  refTargets : List (Nat × Nat)
  dead : List Nat
  refCtr : Nat
  tokCtr : Nat
deriving DecidableEq, Repr

/-- The state of a freshly constructed, empty container. -/
def initState : State :=
  { refs := [], tokens := [], registry := [], refTargets := [],
    dead := [], refCtr := 0, tokCtr := 0 }

/-- Dereference a weak reference: its target element while the target is
not reclaimed, and none afterwards. -/
def deref (s : State) (r : Nat) : Option Nat :=
  match mapGet s.refTargets r with
  | some e => if e ∈ s.dead then none else some e
  | none => none

/-- Membership test on a reference value: looks the element up in the
weakly-keyed refs map. -/
def hasS (s : State) (e : Nat) : Bool :=
  (mapGet s.refs e).isSome

/-- Insertion of a reference value.  When the element is absent, a fresh
token and a fresh weak reference are allocated, the element is mapped to
the reference, the reference is mapped to the token, and a finalization
registration carrying the reference and keyed by the token is added.
When the element is present the state is unchanged. -/
def addS (s : State) (e : Nat) : State :=
  if (mapGet s.refs e).isSome then s
  else
    { s with
      refTargets := (s.refCtr, e) :: s.refTargets,
      refs := mapSet s.refs e s.refCtr,
      tokens := mapSet s.tokens s.refCtr s.tokCtr,
      registry := s.registry ++ [(e, s.refCtr, s.tokCtr)],
      refCtr := s.refCtr + 1,
      tokCtr := s.tokCtr + 1 }

/-- Deletion of a reference value.  When the element is absent the result
is false and the state is unchanged.  Otherwise the element is removed
from the refs map, then the token for its reference is looked up; the
source asserts that lookup non-null, and if it were actually absent the
unregister call would raise on a non-object token, after the refs removal
already happened.  On success the registration is unregistered via the
token and the token-map entry is removed. -/
def deleteS (s : State) (e : Nat) : Except JSError Bool × State :=
  match mapGet s.refs e with
  | none => (Except.ok false, s)
  | some r =>
    let s1 := { s with refs := mapDelete s.refs e }
    match mapGet s.tokens r with
    | none => (Except.error JSError.invalidToken, s1)
    | some t =>
      (Except.ok true,
        { s1 with
          registry := unregister s1.registry t,
          tokens := mapDelete s1.tokens r })

/-- Remove one token-map entry and unregister its token: the action the
iterator takes on a stale entry. -/
def pruneTok (s : State) (r t : Nat) : State :=
  { s with tokens := mapDelete s.tokens r, registry := unregister s.registry t }

/-- Body of the default iterator: walk the given list of token-map entries
in order; an entry whose reference dereferences is yielded, a stale entry
is removed from the token map and its token unregistered, and nothing is
yielded for it. -/
def iterGo : State → List (Nat × Nat) → List Nat × State
  | s, [] => ([], s)
  | s, (r, t) :: rest =>
    match deref s r with
    | some v =>
      let p := iterGo s rest
      (v :: p.1, p.2)
    | none => iterGo (pruneTok s r t) rest

/-- One full default iteration: traverse the current token map, returning
the yielded elements in order and the pruned state. -/
def iterS (s : State) : List Nat × State :=
  iterGo s s.tokens

/-- The size getter: a full iteration counting the yields. -/
def sizeS (s : State) : Nat × State :=
  ((iterS s).1.length, (iterS s).2)

/-- The entries iterator: for each element the default iteration yields,
yield the pair of the element with itself. -/
def entriesS (s : State) : List (Nat × Nat) × State :=
  ((iterS s).1.map (fun v => (v, v)), (iterS s).2)

/-- Body of clear: iterate the token map, deleting each element that still
dereferences and pruning each stale entry; a raising delete aborts the
traversal and propagates. -/
def clearGo : State → List (Nat × Nat) → State
  | s, [] => s
  | s, (r, t) :: rest =>
    match deref s r with
    | some v =>
      let p := deleteS s v
      match p.1 with
      | Except.ok _ => clearGo p.2 rest
      | Except.error _ => p.2
    | none => clearGo (pruneTok s r t) rest

/-- Purge all elements: iterate over the current token map deleting each
surviving element. -/
def clearS (s : State) : State :=
  clearGo s s.tokens

/-- Heap event: an element with no remaining strong references is
reclaimed.  Its identity becomes dead and the weakly-keyed refs map drops
every entry keyed by it, with no container code running. -/
def reclaimS (s : State) (e : Nat) : State :=
  { s with dead := e :: s.dead, refs := s.refs.filter (fun p => p.1 != e) }

/-- Heap event: the finalization registry fires one registration whose
target has been reclaimed.  The callback deletes the token-map entry for
the held reference, and the registration is consumed. -/
def fireS (s : State) (e r t : Nat) : State :=
  { s with tokens := mapDelete s.tokens r, registry := s.registry.erase (e, r, t) }

/-- The public membership operation over caller values: a primitive is
simply not found by the weakly-keyed map, a reference value is looked up.
The body can never raise. -/
def hasV (s : State) (v : JSVal) : Except JSError Bool :=
  match v with
  | JSVal.prim _ => Except.ok false
  | JSVal.obj e => Except.ok (hasS s e)

/-- The public insertion operation over caller values: constructing a
weak reference to a primitive raises before any field is touched; the
operation returns the container itself, here the resulting state. -/
def addV (s : State) (v : JSVal) : Except JSError Unit × State :=
  match v with
  | JSVal.prim _ => (Except.error JSError.invalidKeyType, s)
  | JSVal.obj e => (Except.ok (), addS s e)

/-- The public deletion operation over caller values: the weakly-keyed map
yields nothing for a primitive, so the result is false with no mutation. -/
def deleteV (s : State) (v : JSVal) : Except JSError Bool × State :=
  match v with
  | JSVal.prim _ => (Except.ok false, s)
  | JSVal.obj e => deleteS s e

/-- Container states reachable from construction by the public operations
interleaved with element reclamation and finalization-registry firings.
The iter constructor covers any prefix of a traversal, so states left by
abandoned iterators are included; the prune constructor covers a single
stale-entry pruning step, the state effect of one iterator step taken
after arbitrary interleaved mutation. -/
inductive Reach : State → Prop
  | init : Reach initState
  | add {s e} : Reach s → e ∉ s.dead → Reach (addS s e)
  | del {s e} : Reach s → e ∉ s.dead → Reach (deleteS s e).2
  | iter {s} (n : Nat) : Reach s → Reach (iterGo s (s.tokens.take n)).2
  | prune {s r t} : Reach s → (r, t) ∈ s.tokens → deref s r = none →
      Reach (pruneTok s r t)
  | clear {s} : Reach s → Reach (clearS s)
  | reclaim {s e} : Reach s → e ∉ s.dead → Reach (reclaimS s e)
  | fire {s e r t} : Reach s → e ∈ s.dead → (e, r, t) ∈ s.registry →
      Reach (fireS s e r t)

/-- Internal invariant of reachable states: every refs entry points to a
weak reference targeting exactly its key, its key is not reclaimed, and
its reference has a token-map entry; every registration holds a reference
targeting its recorded element; every allocated reference identity is
below the allocation counter; and every token-map key is an allocated
reference. -/
structure WSInv (s : State) : Prop where
  refs_target : ∀ p ∈ s.refs, mapGet s.refTargets p.2 = some p.1
  refs_live : ∀ p ∈ s.refs, p.1 ∉ s.dead
  refs_token : ∀ p ∈ s.refs, (mapGet s.tokens p.2).isSome
  reg_target : ∀ q ∈ s.registry, mapGet s.refTargets q.2.1 = some q.1
  targets_lt : ∀ p ∈ s.refTargets, p.1 < s.refCtr
  tokens_dom : ∀ p ∈ s.tokens, (mapGet s.refTargets p.1).isSome

/-! Basic lemmas about the association-list map operations. -/

theorem mapGet_nil (k : Nat) : mapGet [] k = none := rfl

theorem mapGet_cons_self (m : List (Nat × Nat)) (k v : Nat) :
    mapGet ((k, v) :: m) k = some v := by
  simp [mapGet, List.find?]

theorem mapGet_cons_ne (m : List (Nat × Nat)) {k k' : Nat} (v : Nat) (h : k' ≠ k) :
    mapGet ((k', v) :: m) k = mapGet m k := by
  have hb : ((k', v).1 == k) = false := by simp [h]
  unfold mapGet
  rw [List.find?_cons_of_neg _ (by simp [hb])]

theorem mapGet_eq_some_mem {m : List (Nat × Nat)} {k v : Nat}
    (h : mapGet m k = some v) : (k, v) ∈ m := by
  unfold mapGet at h
  cases hf : m.find? (fun p => p.1 == k) with
  | none => simp [hf] at h
  | some p =>
    have hp := List.find?_some hf
    have hm := List.mem_of_find?_eq_some hf
    simp [hf] at h
    cases p with
    | mk a b =>
      simp at hp h
      rw [← show a = k from hp, ← show b = v from h]
      exact hm

theorem mapGet_none_iff {m : List (Nat × Nat)} {k : Nat} :
    mapGet m k = none ↔ ∀ p ∈ m, p.1 ≠ k := by
  unfold mapGet
  constructor
  · intro h p hp
    cases hf : m.find? (fun p => p.1 == k) with
    | none =>
      have := List.find?_eq_none.mp hf p hp
      simpa using this
    | some q => simp [hf] at h
  · intro h
    have : m.find? (fun p => p.1 == k) = none := by
      apply List.find?_eq_none.mpr
      intro p hp
      simpa using h p hp
    simp [this]

theorem mapGet_append_left {m n : List (Nat × Nat)} {k v : Nat}
    (h : mapGet m k = some v) : mapGet (m ++ n) k = some v := by
  unfold mapGet at h ⊢
  rw [List.find?_append]
  cases hf : m.find? (fun p => p.1 == k) with
  | none => simp [hf] at h
  | some p => simp [hf] at h ⊢; exact h

theorem mapGet_append_right {m n : List (Nat × Nat)} {k : Nat}
    (h : mapGet m k = none) : mapGet (m ++ n) k = mapGet n k := by
  unfold mapGet at h ⊢
  rw [List.find?_append]
  cases hf : m.find? (fun p => p.1 == k) with
  | none => simp
  | some p => simp [hf] at h

theorem mapGet_mapDelete_self (m : List (Nat × Nat)) (k : Nat) :
    mapGet (mapDelete m k) k = none := by
  apply mapGet_none_iff.mpr
  intro p hp
  unfold mapDelete at hp
  have := List.of_mem_filter hp
  simpa using this

theorem find?_filter_imp {α : Type} (l : List α) (p q : α → Bool)
    (h : ∀ a, q a = true → p a = true) : (l.filter p).find? q = l.find? q := by
  induction l with
  | nil => rfl
  | cons a tl ih =>
    by_cases hp : p a = true
    · rw [List.filter_cons_of_pos hp]
      by_cases hq : q a = true
      · rw [List.find?_cons_of_pos _ hq, List.find?_cons_of_pos _ hq]
      · rw [List.find?_cons_of_neg _ (by simpa using hq),
          List.find?_cons_of_neg _ (by simpa using hq), ih]
    · have hq : ¬ q a = true := fun hqa => hp (h a hqa)
      rw [List.filter_cons_of_neg (by simpa using hp), ih,
        List.find?_cons_of_neg _ (by simpa using hq)]

theorem mapGet_mapDelete_ne (m : List (Nat × Nat)) {k k' : Nat} (h : k' ≠ k) :
    mapGet (mapDelete m k) k' = mapGet m k' := by
  unfold mapGet mapDelete
  rw [find?_filter_imp]
  intro a ha
  simp at ha ⊢
  omega

theorem mem_mapDelete {m : List (Nat × Nat)} {k : Nat} {p : Nat × Nat}
    (h : p ∈ mapDelete m k) : p ∈ m ∧ p.1 ≠ k := by
  unfold mapDelete at h
  refine ⟨List.mem_of_mem_filter h, ?_⟩
  have := List.of_mem_filter h
  simpa using this

theorem mapSet_absent {m : List (Nat × Nat)} {k : Nat} (v : Nat)
    (h : mapGet m k = none) : mapSet m k v = m ++ [(k, v)] := by
  unfold mapSet
  have : m.any (fun p => p.1 == k) = false := by
    rw [List.any_eq_false]
    intro p hp
    have := mapGet_none_iff.mp h p hp
    simpa using this
  simp [this]

/-! Lemmas about dereferencing and the state invariant. -/

theorem deref_pruneTok (s : State) (r t r' : Nat) :
    deref (pruneTok s r t) r' = deref s r' := rfl

theorem deref_some {s : State} {r v : Nat} (h : deref s r = some v) :
    mapGet s.refTargets r = some v ∧ v ∉ s.dead := by
  unfold deref at h
  cases ht : mapGet s.refTargets r with
  | none => rw [ht] at h; exact absurd h (by simp)
  | some e =>
    rw [ht] at h
    by_cases hd : e ∈ s.dead
    · simp [hd] at h
    · simp [hd] at h
      exact ⟨by rw [h], h ▸ hd⟩

theorem tokens_key_lt {s : State} (h : WSInv s) :
    ∀ p ∈ s.tokens, p.1 < s.refCtr := by
  intro p hp
  obtain ⟨v, hv⟩ := Option.isSome_iff_exists.mp (h.tokens_dom p hp)
  exact h.targets_lt (p.1, v) (mapGet_eq_some_mem hv)

theorem refs_val_lt {s : State} (h : WSInv s) :
    ∀ p ∈ s.refs, p.2 < s.refCtr := by
  intro p hp
  exact h.targets_lt (p.2, p.1) (mapGet_eq_some_mem (h.refs_target p hp))

theorem wsinv_init : WSInv initState := by
  constructor <;> intro p hp <;> simp [initState] at hp

theorem wsinv_add {s : State} (h : WSInv s) {e : Nat} (he : e ∉ s.dead) :
    WSInv (addS s e) := by
  unfold addS
  by_cases hc : (mapGet s.refs e).isSome
  · simpa [hc] using h
  · have hre : mapGet s.refs e = none := Option.not_isSome_iff_eq_none.mp hc
    have hrefs : mapSet s.refs e s.refCtr = s.refs ++ [(e, s.refCtr)] :=
      mapSet_absent _ hre
    have htokNone : mapGet s.tokens s.refCtr = none := by
      apply mapGet_none_iff.mpr
      intro p hp
      have := tokens_key_lt h p hp
      omega
    have htoks : mapSet s.tokens s.refCtr s.tokCtr = s.tokens ++ [(s.refCtr, s.tokCtr)] :=
      mapSet_absent _ htokNone
    rw [if_neg (by simp [hre]), hrefs, htoks]
    refine ⟨?_, ?_, ?_, ?_, ?_, ?_⟩
    · intro p hp
      rcases List.mem_append.mp hp with hold | hnew
      · rw [mapGet_cons_ne _ _ (by have := refs_val_lt h p hold; omega)]
        exact h.refs_target p hold
      · simp at hnew
        subst hnew
        exact mapGet_cons_self _ _ _
    · intro p hp
      rcases List.mem_append.mp hp with hold | hnew
      · exact h.refs_live p hold
      · simp at hnew
        subst hnew
        exact he
    · intro p hp
      rcases List.mem_append.mp hp with hold | hnew
      · obtain ⟨t, ht⟩ := Option.isSome_iff_exists.mp (h.refs_token p hold)
        rw [mapGet_append_left ht]
        rfl
      · simp at hnew
        subst hnew
        rw [mapGet_append_right htokNone, mapGet_cons_self]
        rfl
    · intro q hq
      rcases List.mem_append.mp hq with hold | hnew
      · have ht := h.reg_target q hold
        rw [mapGet_cons_ne _ _ (by have := h.targets_lt _ (mapGet_eq_some_mem ht); omega)]
        exact ht
      · simp at hnew
        subst hnew
        exact mapGet_cons_self _ _ _
    · intro p hp
      rcases List.mem_cons.mp hp with hnew | hold
      · subst hnew
        simp
      · have := h.targets_lt p hold
        simp
        omega
    · intro p hp
      rcases List.mem_append.mp hp with hold | hnew
      · obtain ⟨v, hv⟩ := Option.isSome_iff_exists.mp (h.tokens_dom p hold)
        rw [mapGet_cons_ne _ _ (by have := h.targets_lt _ (mapGet_eq_some_mem hv); omega), hv]
        rfl
      · simp at hnew
        subst hnew
        rw [mapGet_cons_self]
        rfl

theorem wsinv_del {s : State} (h : WSInv s) (e : Nat) : WSInv (deleteS s e).2 := by
  cases hre : mapGet s.refs e with
  | none => simpa [deleteS, hre] using h
  | some r =>
    have hrmem : (e, r) ∈ s.refs := mapGet_eq_some_mem hre
    have hter : mapGet s.refTargets r = some e := h.refs_target _ hrmem
    cases hrt : mapGet s.tokens r with
    | none =>
      have hst : (deleteS s e).2 = { s with refs := mapDelete s.refs e } := by
        simp [deleteS, hre, hrt]
      rw [hst]
      refine ⟨?_, ?_, ?_, ?_, ?_, ?_⟩
      · intro p hp
        exact h.refs_target p (mem_mapDelete hp).1
      · intro p hp
        exact h.refs_live p (mem_mapDelete hp).1
      · intro p hp
        exact h.refs_token p (mem_mapDelete hp).1
      · exact h.reg_target
      · exact h.targets_lt
      · exact h.tokens_dom
    | some t =>
      have hst : (deleteS s e).2 = { s with
          refs := mapDelete s.refs e,
          tokens := mapDelete s.tokens r,
          registry := unregister s.registry t } := by
        simp [deleteS, hre, hrt]
      rw [hst]
      refine ⟨?_, ?_, ?_, ?_, ?_, ?_⟩
      · intro p hp
        exact h.refs_target p (mem_mapDelete hp).1
      · intro p hp
        exact h.refs_live p (mem_mapDelete hp).1
      · intro p hp
        obtain ⟨hold, hne⟩ := mem_mapDelete hp
        have htp := h.refs_target p hold
        have hne2 : p.2 ≠ r := by
          intro heq
          rw [heq, hter] at htp
          simp at htp
          exact hne (by simp [htp])
        show (mapGet (mapDelete s.tokens r) p.2).isSome = true
        rw [mapGet_mapDelete_ne _ hne2]
        exact h.refs_token p hold
      · intro q hq
        exact h.reg_target q (List.mem_of_mem_filter hq)
      · exact h.targets_lt
      · intro p hp
        exact h.tokens_dom p (mem_mapDelete hp).1

theorem wsinv_prune {s : State} (h : WSInv s) {r : Nat} (t : Nat)
    (hd : deref s r = none) : WSInv (pruneTok s r t) := by
  refine ⟨?_, ?_, ?_, ?_, ?_, ?_⟩
  · exact h.refs_target
  · exact h.refs_live
  · intro p hp
    have htp := h.refs_target p hp
    have hlive := h.refs_live p hp
    have hne : p.2 ≠ r := by
      intro heq
      rw [heq] at htp
      unfold deref at hd
      rw [htp] at hd
      simp [hlive] at hd
    rw [show (pruneTok s r t).tokens = mapDelete s.tokens r from rfl,
      mapGet_mapDelete_ne _ hne]
    exact h.refs_token p hp
  · intro q hq
    exact h.reg_target q (List.mem_of_mem_filter hq)
  · exact h.targets_lt
  · intro p hp
    exact h.tokens_dom p (mem_mapDelete hp).1

theorem wsinv_reclaim {s : State} (h : WSInv s) (e : Nat) : WSInv (reclaimS s e) := by
  refine ⟨?_, ?_, ?_, ?_, ?_, ?_⟩
  · intro p hp
    exact h.refs_target p (List.mem_of_mem_filter hp)
  · intro p hp
    have hne : p.1 ≠ e := by
      have := List.of_mem_filter hp
      simpa using this
    have := h.refs_live p (List.mem_of_mem_filter hp)
    simp [reclaimS]
    exact ⟨fun hpe => hne hpe, this⟩
  · intro p hp
    exact h.refs_token p (List.mem_of_mem_filter hp)
  · exact h.reg_target
  · exact h.targets_lt
  · exact h.tokens_dom

theorem wsinv_fire {s : State} (h : WSInv s) {e r t : Nat} (he : e ∈ s.dead)
    (hq : (e, r, t) ∈ s.registry) : WSInv (fireS s e r t) := by
  have hter : mapGet s.refTargets r = some e := h.reg_target _ hq
  refine ⟨?_, ?_, ?_, ?_, ?_, ?_⟩
  · exact h.refs_target
  · exact h.refs_live
  · intro p hp
    have htp := h.refs_target p hp
    have hlive := h.refs_live p hp
    have hne : p.2 ≠ r := by
      intro heq
      rw [heq, hter] at htp
      simp at htp
      exact hlive (htp ▸ he)
    rw [show (fireS s e r t).tokens = mapDelete s.tokens r from rfl,
      mapGet_mapDelete_ne _ hne]
    exact h.refs_token p hp
  · intro q hqm
    exact h.reg_target q (List.mem_of_mem_erase hqm)
  · exact h.targets_lt
  · intro p hp
    exact h.tokens_dom p (mem_mapDelete hp).1

theorem wsinv_iterGo {s : State} (l : List (Nat × Nat)) (h : WSInv s) :
    WSInv (iterGo s l).2 := by
  induction l generalizing s with
  | nil => exact h
  | cons p tl ih =>
    cases p with
    | mk r t =>
      cases hd : deref s r with
      | some v => simpa [iterGo, hd] using ih h
      | none => simpa [iterGo, hd] using ih (wsinv_prune h t hd)

theorem wsinv_clearGo {s : State} (l : List (Nat × Nat)) (h : WSInv s) :
    WSInv (clearGo s l) := by
  induction l generalizing s with
  | nil => exact h
  | cons p tl ih =>
    cases p with
    | mk r t =>
      cases hd : deref s r with
      | some v =>
        cases hq : (deleteS s v).1 with
        | ok b => simpa [clearGo, hd, hq] using ih (wsinv_del h v)
        | error err => simpa [clearGo, hd, hq] using wsinv_del h v
      | none => simpa [clearGo, hd] using ih (wsinv_prune h t hd)

theorem wsinv_reach {s : State} (h : Reach s) : WSInv s := by
  induction h with
  | init => exact wsinv_init
  | add hr hd ih => exact wsinv_add ih hd
  | del hr hd ih => exact wsinv_del ih _
  | iter n hr ih => exact wsinv_iterGo _ ih
  | prune hr hm hd ih => exact wsinv_prune ih _ hd
  | clear hr ih => exact wsinv_clearGo _ ih
  | reclaim hr hd ih => exact wsinv_reclaim ih _
  | fire hr he hq ih => exact wsinv_fire ih he hq

/-! Characterization of one full traversal of the default iterator. -/

/-- The stale entries of a token-map fragment: those whose reference no
longer dereferences. -/
def staleOf (s : State) (l : List (Nat × Nat)) : List (Nat × Nat) :=
  l.filter (fun p => (deref s p.1).isNone)

theorem staleOf_pruneTok (s : State) (r t : Nat) (l : List (Nat × Nat)) :
    staleOf (pruneTok s r t) l = staleOf s l := rfl

theorem filter_delete_cons (m : List (Nat × Nat)) (r : Nat) (ks : List Nat) :
    (mapDelete m r).filter (fun p => !(ks.contains p.1)) =
      m.filter (fun p => !((r :: ks).contains p.1)) := by
  unfold mapDelete
  rw [List.filter_filter]
  apply List.filter_congr
  intro p _
  simp [List.contains_cons, Bool.not_or, bne]
  by_cases hb : p.1 = r <;> simp [hb, Bool.and_comm]

theorem filter_unreg_cons (g : List (Nat × Nat × Nat)) (t : Nat) (ts : List Nat) :
    (unregister g t).filter (fun q => !(ts.contains q.2.2)) =
      g.filter (fun q => !((t :: ts).contains q.2.2)) := by
  unfold unregister
  rw [List.filter_filter]
  apply List.filter_congr
  intro q _
  simp [List.contains_cons, Bool.not_or, bne]
  by_cases hb : q.2.2 = t <;> simp [hb, Bool.and_comm]

theorem iterGo_spec (l : List (Nat × Nat)) (s : State) :
    iterGo s l = (l.filterMap (fun p => deref s p.1),
      { s with
        tokens := s.tokens.filter (fun p => !((staleOf s l).map Prod.fst).contains p.1),
        registry := s.registry.filter
          (fun q => !((staleOf s l).map Prod.snd).contains q.2.2) }) := by
  induction l generalizing s with
  | nil => simp [iterGo, staleOf]
  | cons hd tl ih =>
    cases hd with
    | mk r t =>
      cases hdr : deref s r with
      | some v =>
        have hstale : staleOf s ((r, t) :: tl) = staleOf s tl := by
          simp [staleOf, List.filter_cons, hdr]
        simp [iterGo, hdr, hstale, ih s, List.filterMap_cons]
      | none =>
        have hstale : staleOf s ((r, t) :: tl) = (r, t) :: staleOf s tl := by
          simp [staleOf, List.filter_cons, hdr]
        have hgo : iterGo s ((r, t) :: tl) = iterGo (pruneTok s r t) tl := by
          simp [iterGo, hdr]
        rw [hgo, ih (pruneTok s r t), hstale]
        rw [Prod.mk.injEq]
        constructor
        · simp [List.filterMap_cons, hdr, deref_pruneTok]
        · rw [staleOf_pruneTok]
          show ({ s with
              tokens := (mapDelete s.tokens r).filter
                (fun p => !((staleOf s tl).map Prod.fst).contains p.1),
              registry := (unregister s.registry t).filter
                (fun q => !((staleOf s tl).map Prod.snd).contains q.2.2) } : State) = _
          rw [filter_delete_cons, filter_unreg_cons]
          simp [List.map_cons]

theorem stale_filter_eq (s : State) :
    s.tokens.filter (fun p => !((staleOf s s.tokens).map Prod.fst).contains p.1) =
      s.tokens.filter (fun p => (deref s p.1).isSome) := by
  apply List.filter_congr
  intro p hp
  cases hdo : deref s p.1 with
  | some v =>
    have hnm : p.1 ∉ (staleOf s s.tokens).map Prod.fst := by
      intro hmem
      obtain ⟨q, hq, hq1⟩ := List.mem_map.mp hmem
      have hqs := List.of_mem_filter hq
      rw [hq1, hdo] at hqs
      simp at hqs
    simp [hdo, hnm]
  | none =>
    have hm : p.1 ∈ (staleOf s s.tokens).map Prod.fst :=
      List.mem_map.mpr ⟨p, List.mem_filter.mpr ⟨hp, by simp [hdo]⟩, rfl⟩
    simp [hdo, hm]

theorem iterS_spec (s : State) :
    iterS s = (s.tokens.filterMap (fun p => deref s p.1),
      { s with
        tokens := s.tokens.filter (fun p => (deref s p.1).isSome),
        registry := s.registry.filter
          (fun q => !((staleOf s s.tokens).map Prod.snd).contains q.2.2) }) := by
  show iterGo s s.tokens = _
  rw [iterGo_spec, stale_filter_eq]

theorem filterMap_filter_isSome {α β : Type} (f : α → Option β) (l : List α) :
    (l.filter (fun a => (f a).isSome)).filterMap f = l.filterMap f := by
  induction l with
  | nil => rfl
  | cons a tl ih =>
    cases hf : f a <;> simp [List.filter_cons, List.filterMap_cons, hf, ih]

theorem length_filterMap_isSome {α β : Type} (f : α → Option β) (l : List α) :
    (l.filterMap f).length = (l.filter (fun a => (f a).isSome)).length := by
  induction l with
  | nil => rfl
  | cons a tl ih =>
    cases hf : f a <;> simp [List.filter_cons, List.filterMap_cons, hf, ih]

theorem deref_update_tr (s : State) (T : List (Nat × Nat))
    (R : List (Nat × Nat × Nat)) (r : Nat) :
    deref { s with tokens := T, registry := R } r = deref s r := rfl

theorem iterGo_all_live (s : State) (l : List (Nat × Nat))
    (h : ∀ p ∈ l, (deref s p.1).isSome) :
    iterGo s l = (l.filterMap (fun p => deref s p.1), s) := by
  induction l with
  | nil => rfl
  | cons a tl ih =>
    obtain ⟨v, hv⟩ := Option.isSome_iff_exists.mp (h a (List.mem_cons_self a tl))
    cases a with
    | mk r t =>
      simp only [List.filterMap_cons]
      simp [iterGo, hv, ih (fun p hp => h p (List.mem_cons_of_mem _ hp))]

/-- C9: two consecutive full default iterations with no mutation and no
reclamation in between yield identical element sequences, although the
first traversal prunes stale entries: running the iterator on the state
the first run left behind returns the same yield list and leaves the state
fixed. -/
theorem iteration_restartable (s : State) :
    iterS ((iterS s).2) = ((iterS s).1, (iterS s).2) := by
  have hs2tok : (iterS s).2.tokens = s.tokens.filter (fun p => (deref s p.1).isSome) := by
    rw [iterS_spec]
  have hderef : ∀ r, deref (iterS s).2 r = deref s r := by
    intro r
    rw [iterS_spec]
    exact deref_update_tr s _ _ r
  have hall : ∀ p ∈ (iterS s).2.tokens, (deref ((iterS s).2) p.1).isSome := by
    intro p hp
    rw [hderef]
    rw [hs2tok] at hp
    exact (List.mem_filter.mp hp).2
  have h1 := iterGo_all_live ((iterS s).2) ((iterS s).2).tokens hall
  have h2 : iterS ((iterS s).2) =
      (((iterS s).2).tokens.filterMap (fun p => deref ((iterS s).2) p.1), (iterS s).2) := h1
  rw [h2, Prod.mk.injEq]
  refine ⟨?_, rfl⟩
  calc ((iterS s).2).tokens.filterMap (fun p => deref ((iterS s).2) p.1)
      = ((iterS s).2).tokens.filterMap (fun p => deref s p.1) := by
        simp only [hderef]
    _ = (s.tokens.filter (fun p => (deref s p.1).isSome)).filterMap
          (fun p => deref s p.1) := by rw [hs2tok]
    _ = s.tokens.filterMap (fun p => deref s p.1) := filterMap_filter_isSome _ _
    _ = (iterS s).1 := by rw [iterS_spec]

/-- C4: during a full default traversal the token-map entries are visited
in order; each entry whose reference dereferences contributes exactly its
element to the yield sequence, while each stale entry contributes nothing,
is permanently removed from the token map, and has its registration
cancelled via its token (cancelling is a no-op when no registration with
that token remains): the yields are the dereferenced entries in order, the
surviving token map is exactly the non-stale entries, and the surviving
registry keeps exactly the registrations whose token is not carried by a
stale entry; no other field changes. -/
theorem iteration_prunes_and_yields (s : State) :
    iterS s = (s.tokens.filterMap (fun p => deref s p.1),
      { s with
        tokens := s.tokens.filter (fun p => (deref s p.1).isSome),
        registry := s.registry.filter
          (fun q => !((staleOf s s.tokens).map Prod.snd).contains q.2.2) }) :=
  iterS_spec s

/-- C1: in every reachable container state, stale entries are never
observable: default iteration never yields a reclaimed element, the
membership test never reports a reclaimed element, the entries sequence
pairs only non-reclaimed elements with themselves, and the size getter
counts exactly the non-stale token-map entries; reachability includes
histories in which the finalization registry never fires. -/
theorem stale_entries_never_observed {s : State} (h : Reach s) :
    (∀ v ∈ (iterS s).1, v ∉ s.dead) ∧
    (∀ e, hasV s (JSVal.obj e) = Except.ok true → e ∉ s.dead) ∧
    (∀ pr ∈ (entriesS s).1, pr.1 ∉ s.dead ∧ pr.2 = pr.1) ∧
    (sizeS s).1 = (s.tokens.filter (fun p => (deref s p.1).isSome)).length := by
  have hinv := wsinv_reach h
  have hyield : ∀ v ∈ (iterS s).1, v ∉ s.dead := by
    intro v hv
    rw [iterS_spec] at hv
    obtain ⟨p, hp, hd⟩ := List.mem_filterMap.mp hv
    exact (deref_some hd).2
  refine ⟨hyield, ?_, ?_, ?_⟩
  · intro e he
    have hb : (mapGet s.refs e).isSome := by simpa [hasV, hasS] using he
    obtain ⟨r, hr⟩ := Option.isSome_iff_exists.mp hb
    exact hinv.refs_live (e, r) (mapGet_eq_some_mem hr)
  · intro pr hpr
    obtain ⟨v, hv, hveq⟩ := List.mem_map.mp hpr
    refine ⟨?_, ?_⟩
    · rw [← hveq]
      exact hyield v hv
    · rw [← hveq]
  · show (iterS s).1.length = _
    rw [iterS_spec]
    exact length_filterMap_isSome _ _

theorem stale_entries_never_observed_witness :
    (sizeS (addS initState 0)).1 =
      ((addS initState 0).tokens.filter
        (fun p => (deref (addS initState 0) p.1).isSome)).length :=
  (stale_entries_never_observed (Reach.add Reach.init (by decide))).2.2.2

/-- C6: adding a reference value that is already present is a no-op: the
call raises nothing, returns the container itself, and leaves the state
entirely unchanged. -/
theorem add_idempotent_when_present {s : State} {e : Nat}
    (h : hasV s (JSVal.obj e) = Except.ok true) :
    addV s (JSVal.obj e) = (Except.ok (), s) := by
  have hb : (mapGet s.refs e).isSome := by simpa [hasV, hasS] using h
  simp [addV, addS, hb]

theorem add_idempotent_when_present_witness :
    hasV (addS initState 0) (JSVal.obj 0) = Except.ok true ∧
      addV (addS initState 0) (JSVal.obj 0) = (Except.ok (), addS initState 0) :=
  ⟨rfl, add_idempotent_when_present rfl⟩

/-- C7: membership tracks insertion and deletion: in any reachable state,
immediately after adding a reference value the membership test reports
true; a following delete of the same value returns true; and after it the
membership test reports false. -/
theorem membership_after_add_delete {s : State} (e : Nat) (h : Reach s) :
    hasV (addV s (JSVal.obj e)).2 (JSVal.obj e) = Except.ok true ∧
    (deleteV (addV s (JSVal.obj e)).2 (JSVal.obj e)).1 = Except.ok true ∧
    hasV (deleteV (addV s (JSVal.obj e)).2 (JSVal.obj e)).2 (JSVal.obj e) =
      Except.ok false := by
  have hinv := wsinv_reach h
  have key : ∃ r t, mapGet (addS s e).refs e = some r ∧
      mapGet (addS s e).tokens r = some t := by
    by_cases hc : (mapGet s.refs e).isSome
    · obtain ⟨r, hr⟩ := Option.isSome_iff_exists.mp hc
      obtain ⟨t, ht⟩ := Option.isSome_iff_exists.mp
        (hinv.refs_token (e, r) (mapGet_eq_some_mem hr))
      exact ⟨r, t, by simp [addS, hc, hr], by simp [addS, hc, ht]⟩
    · have hre : mapGet s.refs e = none := Option.not_isSome_iff_eq_none.mp hc
      have htokNone : mapGet s.tokens s.refCtr = none := by
        apply mapGet_none_iff.mpr
        intro p hp
        have := tokens_key_lt hinv p hp
        omega
      refine ⟨s.refCtr, s.tokCtr, ?_, ?_⟩
      · rw [show (addS s e).refs = mapSet s.refs e s.refCtr from by simp [addS, hc]]
        rw [mapSet_absent _ hre, mapGet_append_right hre, mapGet_cons_self]
      · rw [show (addS s e).tokens = mapSet s.tokens s.refCtr s.tokCtr from by
          simp [addS, hc]]
        rw [mapSet_absent _ htokNone, mapGet_append_right htokNone, mapGet_cons_self]
  obtain ⟨r, t, hr, ht⟩ := key
  refine ⟨?_, ?_, ?_⟩
  · simp [addV, hasV, hasS, hr]
  · simp [addV, deleteV, deleteS, hr, ht]
  · simp [addV, deleteV, deleteS, hr, ht, hasV, hasS, mapGet_mapDelete_self]

theorem membership_after_add_delete_witness :
    hasV (addV initState (JSVal.obj 0)).2 (JSVal.obj 0) = Except.ok true ∧
    (deleteV (addV initState (JSVal.obj 0)).2 (JSVal.obj 0)).1 = Except.ok true ∧
    hasV (deleteV (addV initState (JSVal.obj 0)).2 (JSVal.obj 0)).2 (JSVal.obj 0) =
      Except.ok false :=
  membership_after_add_delete 0 Reach.init

/-- C8: deleting a reference value that is not present returns false,
raises nothing, and leaves the container state unchanged, so in
particular the size getter result is unaltered. -/
theorem delete_absent_returns_false {s : State} {e : Nat}
    (h : hasV s (JSVal.obj e) = Except.ok false) :
    deleteV s (JSVal.obj e) = (Except.ok false, s) ∧
      (sizeS (deleteV s (JSVal.obj e)).2).1 = (sizeS s).1 := by
  have hb : (mapGet s.refs e).isSome = false := by simpa [hasV, hasS] using h
  have hre : mapGet s.refs e = none := by
    cases hx : mapGet s.refs e with
    | none => rfl
    | some r => rw [hx] at hb; simp at hb
  have h1 : deleteV s (JSVal.obj e) = (Except.ok false, s) := by
    simp [deleteV, deleteS, hre]
  exact ⟨h1, by rw [h1]⟩

theorem delete_absent_returns_false_witness :
    deleteV initState (JSVal.obj 0) = (Except.ok false, initState) ∧
      (sizeS (deleteV initState (JSVal.obj 0)).2).1 = (sizeS initState).1 :=
  delete_absent_returns_false rfl

/-- C10: in every reachable state, every weak reference stored in the
membership index belongs to a still-live element and occurs as a key of
the token map; consequently the token lookup inside delete never comes up
empty, the non-null assertion there is safe, and delete always returns
normally, reporting exactly whether the element was present. -/
theorem refs_tokens_alignment {s : State} (h : Reach s) :
    (∀ e r, mapGet s.refs e = some r →
      e ∉ s.dead ∧ (mapGet s.tokens r).isSome = true) ∧
    (∀ e, (deleteS s e).1 = Except.ok (mapGet s.refs e).isSome) := by
  have hinv := wsinv_reach h
  constructor
  · intro e r hr
    exact ⟨hinv.refs_live (e, r) (mapGet_eq_some_mem hr),
      hinv.refs_token (e, r) (mapGet_eq_some_mem hr)⟩
  · intro e
    cases hre : mapGet s.refs e with
    | none => simp [deleteS, hre]
    | some r =>
      obtain ⟨t, ht⟩ := Option.isSome_iff_exists.mp
        (hinv.refs_token (e, r) (mapGet_eq_some_mem hre))
      simp [deleteS, hre, ht]

theorem refs_tokens_alignment_witness :
    (deleteS (addS initState 0) 0).1 =
      Except.ok (mapGet (addS initState 0).refs 0).isSome :=
  (refs_tokens_alignment (Reach.add Reach.init (by decide))).2 0

/-- C2 counterexample: on the empty container with the primitive value 1,
the membership and deletion operations do not raise the invalid-key
error; both return false, refuting the claim that each of the three
operations raises it on primitive inputs. -/
theorem primitive_has_delete_no_raise_counterexample :
    hasV initState (JSVal.prim 1) = Except.ok false ∧
    deleteV initState (JSVal.prim 1) = (Except.ok false, initState) ∧
    hasV initState (JSVal.prim 1) ≠ Except.error JSError.invalidKeyType ∧
    (deleteV initState (JSVal.prim 1)).1 ≠ Except.error JSError.invalidKeyType := by
  refine ⟨rfl, rfl, by simp [hasV], by simp [deleteV]⟩

/-- C2 amended: of the three operations only insertion raises the
invalid-key error on a primitive input, synchronously and before any
mutation (in particular adding the primitive 1 raises it); membership and
deletion return false on primitives instead of raising. -/
theorem primitive_only_add_raises (s : State) (n : Nat) :
    (addV s (JSVal.prim n)).1 = Except.error JSError.invalidKeyType ∧
    hasV s (JSVal.prim n) = Except.ok false ∧
    (deleteV s (JSVal.prim n)).1 = Except.ok false ∧
    (addV initState (JSVal.prim 1)).1 = Except.error JSError.invalidKeyType :=
  ⟨rfl, rfl, rfl, rfl⟩

/-- C3: for every primitive input and every container state, membership
returns false without raising, deletion returns false without raising,
neither mutates the state, and only insertion raises, via the
weak-reference constructor, also leaving the state unchanged. -/
theorem primitive_inputs_safe (s : State) (n : Nat) :
    hasV s (JSVal.prim n) = Except.ok false ∧
    deleteV s (JSVal.prim n) = (Except.ok false, s) ∧
    addV s (JSVal.prim n) = (Except.error JSError.invalidKeyType, s) :=
  ⟨rfl, rfl, rfl⟩

/-! Order preservation for sequences of insertions and deletions. -/

/-- One public mutation used to state order preservation: insertion or
deletion of a reference value. -/
inductive SetOp where
  | addO (e : Nat)
  | delO (e : Nat)
deriving DecidableEq, Repr

/-- Apply one operation to a container state. -/
def applyOp (s : State) : SetOp → State
  | SetOp.addO e => addS s e
  | SetOp.delO e => (deleteS s e).2

/-- Apply a sequence of operations to the freshly constructed container. -/
def applyOps (ops : List SetOp) : State :=
  ops.foldl applyOp initState

/-- Specified insertion-order bookkeeping: insertion appends a new element
at the end and is a no-op on a present element; deletion removes the
element and keeps the relative order of the others. -/
def absStep (l : List Nat) : SetOp → List Nat
  | SetOp.addO e => if e ∈ l then l else l ++ [e]
  | SetOp.delO e => l.filter (fun x => x != e)

/-- The insertion order determined by a sequence of operations. -/
def absList (ops : List SetOp) : List Nat :=
  ops.foldl absStep []

/-- Simulation relation between the abstract insertion-order list and a
container state built by insertions and deletions with no reclamation. -/
structure Sim (l : List Nat) (s : State) : Prop where
  dead_nil : s.dead = []
  mem_iff : ∀ e, (mapGet s.refs e).isSome = true ↔ e ∈ l
  order : s.tokens.map (fun p => mapGet s.refTargets p.1) = l.map some
  refs_target : ∀ p ∈ s.refs, mapGet s.refTargets p.2 = some p.1
  targets_lt : ∀ p ∈ s.refTargets, p.1 < s.refCtr
  tok_bij : ∀ p ∈ s.tokens, ∃ e, mapGet s.refTargets p.1 = some e ∧
    mapGet s.refs e = some p.1
  refs_token : ∀ p ∈ s.refs, (mapGet s.tokens p.2).isSome

theorem sim_init : Sim [] initState := by
  constructor
  · rfl
  · intro e
    simp [initState, mapGet]
  · rfl
  · intro p hp
    simp [initState] at hp
  · intro p hp
    simp [initState] at hp
  · intro p hp
    simp [initState] at hp
  · intro p hp
    simp [initState] at hp

theorem map_filter_comp {α β : Type} (f : α → β) (q : β → Bool) (l : List α) :
    (l.filter (fun a => q (f a))).map f = (l.map f).filter q := by
  induction l with
  | nil => rfl
  | cons a tl ih =>
    by_cases hq : q (f a) = true <;>
      simp [List.filter_cons, List.map_cons, hq, ih]

theorem filterMap_eq_of_map_some {α : Type} (f : α → Option Nat) (l1 : List α)
    (l2 : List Nat) (h : l1.map f = l2.map some) : l1.filterMap f = l2 := by
  induction l1 generalizing l2 with
  | nil =>
    cases l2 with
    | nil => rfl
    | cons b tb => simp at h
  | cons a tl ih =>
    cases l2 with
    | nil => simp at h
    | cons b tb =>
      simp only [List.map_cons, List.cons.injEq] at h
      obtain ⟨h1, h2⟩ := h
      simp [List.filterMap_cons, h1, ih tb h2]

theorem deref_of_dead_nil {s : State} (h : s.dead = []) (r : Nat) :
    deref s r = mapGet s.refTargets r := by
  unfold deref
  cases ht : mapGet s.refTargets r with
  | none => rfl
  | some e => simp [h]

theorem sim_yields {l : List Nat} {s : State} (h : Sim l s) : (iterS s).1 = l := by
  rw [iterS_spec]
  simp only [deref_of_dead_nil h.dead_nil]
  exact filterMap_eq_of_map_some _ _ _ h.order

theorem sim_add {l : List Nat} {s : State} (h : Sim l s) (e : Nat) :
    Sim (absStep l (SetOp.addO e)) (addS s e) := by
  by_cases hc : (mapGet s.refs e).isSome = true
  · have hmem : e ∈ l := (h.mem_iff e).mp hc
    have hs : addS s e = s := by simp [addS, hc]
    have habs : absStep l (SetOp.addO e) = l := by simp [absStep, hmem]
    rw [hs, habs]
    exact h
  · have hre : mapGet s.refs e = none :=
      Option.not_isSome_iff_eq_none.mp (by simpa using hc)
    have hmem : e ∉ l := fun hm => hc ((h.mem_iff e).mpr hm)
    have habs : absStep l (SetOp.addO e) = l ++ [e] := by simp [absStep, hmem]
    have htoklt : ∀ p ∈ s.tokens, p.1 < s.refCtr := by
      intro p hp
      obtain ⟨e0, he0, _⟩ := h.tok_bij p hp
      exact h.targets_lt (p.1, e0) (mapGet_eq_some_mem he0)
    have htokNone : mapGet s.tokens s.refCtr = none := by
      apply mapGet_none_iff.mpr
      intro p hp
      have := htoklt p hp
      omega
    have hst : addS s e = { s with
        refTargets := (s.refCtr, e) :: s.refTargets,
        refs := s.refs ++ [(e, s.refCtr)],
        tokens := s.tokens ++ [(s.refCtr, s.tokCtr)],
        registry := s.registry ++ [(e, s.refCtr, s.tokCtr)],
        refCtr := s.refCtr + 1,
        tokCtr := s.tokCtr + 1 } := by
      rw [addS, if_neg hc, mapSet_absent _ hre, mapSet_absent _ htokNone]
    rw [hst, habs]
    refine ⟨h.dead_nil, ?_, ?_, ?_, ?_, ?_, ?_⟩
    · intro e'
      show (mapGet (s.refs ++ [(e, s.refCtr)]) e').isSome = true ↔ e' ∈ l ++ [e]
      cases hx : mapGet s.refs e' with
      | some v =>
        rw [mapGet_append_left hx]
        have : e' ∈ l := (h.mem_iff e').mp (by simp [hx])
        simp [this]
      | none =>
        rw [mapGet_append_right hx]
        by_cases he' : e' = e
        · subst he'
          rw [mapGet_cons_self]
          simp
        · rw [mapGet_cons_ne _ _ (fun hh => he' hh.symm)]
          have : e' ∉ l := fun hm => by
            have := (h.mem_iff e').mpr hm
            rw [hx] at this
            simp at this
          simp [mapGet, this, he']
    · show (s.tokens ++ [(s.refCtr, s.tokCtr)]).map
          (fun p => mapGet ((s.refCtr, e) :: s.refTargets) p.1) = (l ++ [e]).map some
      rw [List.map_append, List.map_append]
      have h1 : s.tokens.map (fun p => mapGet ((s.refCtr, e) :: s.refTargets) p.1) =
          s.tokens.map (fun p => mapGet s.refTargets p.1) := by
        apply List.map_congr_left
        intro p hp
        exact mapGet_cons_ne _ _ (by have := htoklt p hp; omega)
      rw [h1, h.order]
      simp [mapGet_cons_self]
    · intro p hp
      rcases List.mem_append.mp hp with hold | hnew
      · rw [mapGet_cons_ne _ _
          (by have := h.targets_lt (p.2, p.1) (mapGet_eq_some_mem (h.refs_target p hold)); omega)]
        exact h.refs_target p hold
      · simp at hnew
        subst hnew
        exact mapGet_cons_self _ _ _
    · intro p hp
      rcases List.mem_cons.mp hp with hnew | hold
      · subst hnew
        simp
      · have := h.targets_lt p hold
        simp
        omega
    · intro p hp
      rcases List.mem_append.mp hp with hold | hnew
      · obtain ⟨e0, he0, hre0⟩ := h.tok_bij p hold
        refine ⟨e0, ?_, mapGet_append_left hre0⟩
        rw [mapGet_cons_ne _ _ (by have := htoklt p hold; omega)]
        exact he0
      · simp at hnew
        subst hnew
        refine ⟨e, mapGet_cons_self _ _ _, ?_⟩
        rw [mapGet_append_right hre, mapGet_cons_self]
    · intro p hp
      rcases List.mem_append.mp hp with hold | hnew
      · obtain ⟨t0, ht0⟩ := Option.isSome_iff_exists.mp (h.refs_token p hold)
        rw [mapGet_append_left ht0]
        rfl
      · simp at hnew
        subst hnew
        rw [mapGet_append_right htokNone, mapGet_cons_self]
        rfl

theorem sim_del {l : List Nat} {s : State} (h : Sim l s) (e : Nat) :
    Sim (absStep l (SetOp.delO e)) ((deleteS s e).2) := by
  cases hre : mapGet s.refs e with
  | none =>
    have hmem : e ∉ l := fun hm => by
      have hiff := (h.mem_iff e).mpr hm
      rw [hre] at hiff
      simp at hiff
    have habs : absStep l (SetOp.delO e) = l := by
      show l.filter (fun x => x != e) = l
      apply List.filter_eq_self.mpr
      intro a ha
      simp
      exact fun haeq => hmem (haeq ▸ ha)
    have hst : (deleteS s e).2 = s := by simp [deleteS, hre]
    rw [hst, habs]
    exact h
  | some r =>
    have hrmem : (e, r) ∈ s.refs := mapGet_eq_some_mem hre
    have hter : mapGet s.refTargets r = some e := h.refs_target _ hrmem
    obtain ⟨t, ht⟩ := Option.isSome_iff_exists.mp (h.refs_token _ hrmem)
    have hst : (deleteS s e).2 = { s with
        refs := mapDelete s.refs e,
        tokens := mapDelete s.tokens r,
        registry := unregister s.registry t } := by
      simp [deleteS, hre, ht]
    rw [hst]
    show Sim (l.filter (fun x => x != e)) _
    refine ⟨h.dead_nil, ?_, ?_, ?_, h.targets_lt, ?_, ?_⟩
    · intro e'
      show (mapGet (mapDelete s.refs e) e').isSome = true ↔
        e' ∈ l.filter (fun x => x != e)
      by_cases he' : e' = e
      · subst he'
        rw [mapGet_mapDelete_self]
        simp
      · rw [mapGet_mapDelete_ne _ he', h.mem_iff e']
        constructor
        · intro hm
          exact List.mem_filter.mpr ⟨hm, by simp [he']⟩
        · intro hm
          exact (List.mem_filter.mp hm).1
    · show (mapDelete s.tokens r).map (fun p => mapGet s.refTargets p.1) =
        (l.filter (fun x => x != e)).map some
      have hfc : s.tokens.filter (fun p => p.1 != r) =
          s.tokens.filter (fun p => mapGet s.refTargets p.1 != some e) := by
        apply List.filter_congr
        intro p hp
        obtain ⟨e0, he0, hre0⟩ := h.tok_bij p hp
        by_cases hpr : p.1 = r
        · rw [hpr, hter]
          simp
        · have he0e : e0 ≠ e := by
            intro heq
            subst heq
            have hps : some p.1 = some r := hre0.symm.trans hre
            simp at hps
            exact hpr hps
          rw [he0]
          have h1 : (p.1 != r) = true := by simp [hpr]
          have h2 : ((some e0 : Option Nat) != some e) = true := by simp [he0e]
          rw [h1, h2]
      calc (mapDelete s.tokens r).map (fun p => mapGet s.refTargets p.1)
          = (s.tokens.filter (fun p => mapGet s.refTargets p.1 != some e)).map
              (fun p => mapGet s.refTargets p.1) := by
            show (s.tokens.filter (fun p => p.1 != r)).map _ = _
            rw [hfc]
        _ = (s.tokens.map (fun p => mapGet s.refTargets p.1)).filter
              (fun o => o != some e) :=
            map_filter_comp (fun p => mapGet s.refTargets p.1)
              (fun o => o != some e) s.tokens
        _ = (l.map some).filter (fun o => o != some e) := by rw [h.order]
        _ = (l.filter (fun x => (some x : Option Nat) != some e)).map some :=
            (map_filter_comp some (fun o => o != some e) l).symm
        _ = (l.filter (fun x => x != e)).map some := by
            apply congrArg
            apply List.filter_congr
            intro x _
            rfl
    · intro p hp
      exact h.refs_target p (mem_mapDelete hp).1
    · intro p hp
      obtain ⟨hold, hne⟩ := mem_mapDelete hp
      obtain ⟨e0, he0, hre0⟩ := h.tok_bij p hold
      have he0e : e0 ≠ e := by
        intro heq
        subst heq
        have hps : some p.1 = some r := hre0.symm.trans hre
        simp at hps
        exact hne hps
      exact ⟨e0, he0, by rw [mapGet_mapDelete_ne _ he0e]; exact hre0⟩
    · intro p hp
      obtain ⟨hold, hne⟩ := mem_mapDelete hp
      have htp := h.refs_target p hold
      have hne2 : p.2 ≠ r := by
        intro heq
        rw [heq, hter] at htp
        simp at htp
        exact hne htp.symm
      show (mapGet (mapDelete s.tokens r) p.2).isSome = true
      rw [mapGet_mapDelete_ne _ hne2]
      exact h.refs_token p hold

theorem sim_fold (ops : List SetOp) {l : List Nat} {s : State} (h : Sim l s) :
    Sim (ops.foldl absStep l) (ops.foldl applyOp s) := by
  induction ops generalizing l s with
  | nil => exact h
  | cons op tl ih =>
    cases op with
    | addO e => exact ih (sim_add h e)
    | delO e => exact ih (sim_del h e)

/-- C5: for every sequence of insertions and deletions of live reference
values applied to a fresh container, a full default iteration yields the
surviving elements in their relative insertion order, with deletions of
other elements leaving that order unaffected; in particular adding 0, 1
and 2, deleting 1, then re-adding 1 makes iteration yield 0, 2, 1. -/
theorem iteration_insertion_order :
    (∀ ops : List SetOp, (iterS (applyOps ops)).1 = absList ops) ∧
    (iterS (applyOps [SetOp.addO 0, SetOp.addO 1, SetOp.addO 2,
      SetOp.delO 1, SetOp.addO 1])).1 = [0, 2, 1] := by
  have hmain : ∀ ops : List SetOp, (iterS (applyOps ops)).1 = absList ops :=
    fun ops => sim_yields (sim_fold ops sim_init)
  exact ⟨hmain, by decide⟩
